import Mathlib

/-!
Verification of the git-report core (main.go): the glob path matcher
(matchPath, including the fallback to Go's filepath.Match), the git-log
parser loop (parseGitLog), and the component-contribution aggregation
(computeComponentContributions).

Strings are modelled as `List Char` (Go strings are byte strings; all the
behaviour verified here concerns ASCII data, on which the byte/rune
distinction is invisible). Go's standard-library helpers used by the code
(strings.HasPrefix, strings.HasSuffix, strings.Contains, strings.Split,
strings.SplitN, strings.Fields, strings.TrimPrefix/TrimSuffix,
strconv.Atoi, bufio.ScanLines, time.Parse for one fixed layout, and
path/filepath.Match) are embedded below, faithful to their Go sources.
-/

/-- Go strings.HasPrefix(s, pre). -/
def startsWith : List Char → List Char → Bool
  | _, [] => true
  | [], _ :: _ => false
  | c :: t, d :: u => c = d && startsWith t u

/-- Go strings.HasSuffix(s, suf): suf is a trailing segment of s. -/
def endsWith (s suf : List Char) : Bool :=
  startsWith s.reverse suf.reverse

/-- Go strings.Contains(s, sub): sub occurs as a contiguous substring of s. -/
def containsGo : List Char → List Char → Bool
  | s, sub =>
    if startsWith s sub then true
    else
      match s with
      | [] => false
      | _ :: t => containsGo t sub

/-- Termination measure lemma for splitGo: a leading occurrence of pre in s is no longer than s. -/
theorem startsWith_length_le : ∀ s pre, startsWith s pre = true → pre.length ≤ s.length := by
  intro s pre
  induction pre generalizing s with
  | nil => intro _; simp
  | cons d u ih =>
    intro h
    cases s with
    | nil => simp [startsWith] at h
    | cons c t =>
      simp only [startsWith, Bool.and_eq_true] at h
      have := ih t h.2
      simp only [List.length_cons]
      omega

/-- Go strings.Split(s, sep) for a non-empty separator: the pieces of s between
the non-overlapping, leftmost-first occurrences of sep. (The code only ever
calls it with sep = "**" or the NUL byte; the empty-separator case of Go is
never reached and is mapped to [s] here.) -/
def splitGo (sep : List Char) (s : List Char) : List (List Char) :=
  if h : sep ≠ [] ∧ startsWith s sep then
    [] :: splitGo sep (s.drop sep.length)
  else
    match s with
    | [] => [[]]
    | c :: t =>
      match splitGo sep t with
      | [] => [[c]]
      | p :: ps => (c :: p) :: ps
termination_by s.length
decreasing_by
  · have h1 := startsWith_length_le s sep h.2
    have h2 : 0 < sep.length := List.length_pos.mpr h.1
    simp only [List.length_drop]
    omega
  · simp only [List.length_cons]; omega

/-- Go strings.TrimPrefix(s, "/"): remove one leading slash if present. -/
def trimOneLeadSlash : List Char → List Char
  | '/' :: t => t
  | s => s

/-- Go strings.TrimSuffix(s, "/"): remove one trailing slash if present. -/
def trimOneTrailSlash (s : List Char) : List Char :=
  if endsWith s ['/'] then s.dropLast else s

/-- Go strings.SplitN(p, ":", 2) as used in computeComponentContributions:
some (before, after) at the first colon; none models the len(parts) != 2
case (no colon present). -/
def splitColon : List Char → Option (List Char × List Char)
  | [] => none
  | c :: t =>
    if c = ':' then some ([], t)
    else (splitColon t).map (fun pr => (c :: pr.1, pr.2))

/-! ### Go path/filepath.Match (unix), used by matchPath for single-star patterns.
Except Unit models the (value, error) pair: .error () is ErrBadPattern. -/

/-- Go filepath.Match's getEsc: read one (possibly backslash-escaped) class
character; fails on an empty chunk, a leading '-' or ']', a trailing
backslash, or when nothing follows the character inside the class. -/
def getEsc (chunk : List Char) : Except Unit (Char × List Char) :=
  match chunk with
  | [] => .error ()
  | c :: t =>
    if c = '-' ∨ c = ']' then .error ()
    else if c = '\\' then
      match t with
      | [] => .error ()
      | d :: t2 => if t2 = [] then .error () else .ok (d, t2)
    else if t = [] then .error () else .ok (c, t)

/-- Termination lemma: getEsc consumes at least one character. -/
theorem getEsc_lt : ∀ chunk r rest, getEsc chunk = .ok (r, rest) → rest.length < chunk.length := by
  intro chunk r rest h
  unfold getEsc at h
  cases chunk with
  | nil => exact absurd h (by simp)
  | cons c t =>
    simp only at h
    split at h
    · exact absurd h (by simp)
    · split at h
      · cases t with
        | nil => exact absurd h (by simp)
        | cons d t2 =>
          simp only at h
          split at h
          · exact absurd h (by simp)
          · simp only [Except.ok.injEq, Prod.mk.injEq] at h
            simp only [← h.2, List.length_cons]
            omega
      · split at h
        · exact absurd h (by simp)
        · simp only [Except.ok.injEq, Prod.mk.injEq] at h
          simp only [← h.2, List.length_cons]
          omega

/-- The character-class loop inside Go filepath.Match's matchChunk (the
`for { ... }` over `[...]` ranges): r is the rune taken from the name (rune 0
when the match has already failed), m the accumulated match flag, nrange the
number of ranges read so far. Returns (match flag, chunk after ']'). -/
def parseClass (r : Char) (m : Bool) (nrange : Nat) (chunk : List Char) :
    Except Unit (Bool × List Char) :=
  if chunk.head? = some ']' ∧ 0 < nrange then .ok (m, chunk.tail)
  else
    match hlo : getEsc chunk with
    | .error _ => .error ()
    | .ok (lo, ch1) =>
      match hhi : (if ch1.head? = some '-' then getEsc ch1.tail else .ok (lo, ch1)) with
      | .error _ => .error ()
      | .ok (hi, ch2) =>
        parseClass r (m || (decide (lo ≤ r) && decide (r ≤ hi))) (nrange + 1) ch2
termination_by chunk.length
decreasing_by
  have hl1 := getEsc_lt chunk lo ch1 hlo
  split at hhi
  · have hl2 := getEsc_lt ch1.tail hi ch2 hhi
    have : ch1.tail.length ≤ ch1.length := by
      cases ch1 <;> simp
    omega
  · simp only [Except.ok.injEq, Prod.mk.injEq] at hhi
    obtain ⟨-, h2⟩ := hhi
    subst h2
    omega

/-- Termination lemma: the class loop consumes part of the chunk. -/
theorem parseClass_lt : ∀ k chunk, chunk.length ≤ k → ∀ r m nrange b rest,
    parseClass r m nrange chunk = .ok (b, rest) → rest.length < chunk.length := by
  intro k
  induction k with
  | zero =>
    intro chunk hk r m nrange b rest h
    rw [parseClass] at h
    have hc : chunk = [] := by
      cases chunk
      · rfl
      · simp at hk
    subst hc
    simp [getEsc] at h
  | succ n ih =>
    intro chunk hk r m nrange b rest h
    rw [parseClass] at h
    split at h
    · rename_i hcond
      simp only [Except.ok.injEq, Prod.mk.injEq] at h
      obtain ⟨-, h2⟩ := h
      subst h2
      cases chunk with
      | nil => simp at hcond
      | cons c t => simp
    · split at h
      · simp at h
      · rename_i lo ch1 hlo
        split at h
        · simp at h
        · rename_i hi ch2 hhi
          have hl1 := getEsc_lt chunk lo ch1 hlo
          have hl2 : ch2.length < chunk.length := by
            split at hhi
            · have := getEsc_lt ch1.tail hi ch2 hhi
              have : ch1.tail.length ≤ ch1.length := by cases ch1 <;> simp
              omega
            · simp only [Except.ok.injEq, Prod.mk.injEq] at hhi
              obtain ⟨-, h2⟩ := hhi
              subst h2
              omega
          have := ih ch2 (by omega) r (m || (decide (lo ≤ r) && decide (r ≤ hi))) (nrange + 1) b rest h
          omega

/-- Go filepath.Match's matchChunk: match one chunk against the front of s.
A failure flag mirrors Go's `failed` local: after a mismatch the loop keeps
scanning the chunk (no longer reading s) so that syntax errors are still
reported. Returns .ok (rest of s, ok-flag), or .error () for ErrBadPattern. -/
def matchChunk (chunk s : List Char) (failed : Bool) : Except Unit (List Char × Bool) :=
  match chunk with
  | [] => if failed then .ok ([], false) else .ok (s, true)
  | c :: ct =>
    let failed1 := failed || s.isEmpty
    if c = '[' then
      let r : Char := if failed1 then '\x00' else s.headD '\x00'
      let s1 := if failed1 then s else s.tail
      let neg := decide (ct.head? = some '^')
      let ct1 := if ct.head? = some '^' then ct.tail else ct
      match hpc : parseClass r false 0 ct1 with
      | .error _ => .error ()
      | .ok (mt, ct2) => matchChunk ct2 s1 (failed1 || decide (mt = neg))
    else if c = '?' then
      if failed1 then matchChunk ct s failed1
      else matchChunk ct s.tail (decide (s.headD '\x00' = '/'))
    else if c = '\\' then
      match ct with
      | [] => .error ()
      | d :: ct2 =>
        if failed1 then matchChunk ct2 s failed1
        else matchChunk ct2 s.tail (decide (d ≠ s.headD '\x00'))
    else
      if failed1 then matchChunk ct s failed1
      else matchChunk ct s.tail (decide (c ≠ s.headD '\x00'))
termination_by chunk.length
decreasing_by
  · have h1 := parseClass_lt ct1.length ct1 (le_refl _) _ _ _ _ _ hpc
    simp only [ct1] at h1
    split at h1
    · simp only [List.length_tail] at h1
      simp only [List.length_cons]
      omega
    · simp only [List.length_cons]
      omega
  all_goals (simp only [List.length_cons]; omega)

/-- The chunk scan of Go filepath.Match's scanChunk after the leading stars
have been dropped: returns (chunk, rest). A backslash protects the next
character; '*' ends the chunk only outside a [...] range. -/
def scanChunkAux (inrange : Bool) : List Char → List Char × List Char
  | [] => ([], [])
  | c :: t =>
    if c = '\\' then
      match t with
      | [] => (['\\'], [])
      | d :: t2 =>
        let p := scanChunkAux inrange t2
        ('\\' :: d :: p.1, p.2)
    else if c = '[' then
      let p := scanChunkAux true t
      (c :: p.1, p.2)
    else if c = ']' then
      let p := scanChunkAux false t
      (c :: p.1, p.2)
    else if c = '*' ∧ inrange = false then ([], c :: t)
    else
      let p := scanChunkAux inrange t
      (c :: p.1, p.2)

/-- Go filepath.Match's scanChunk: strip leading stars (star flag), then scan
one chunk. Returns (star, chunk, rest of pattern). -/
def scanChunk (pat : List Char) : Bool × List Char × List Char :=
  let star := decide (pat.head? = some '*')
  let p := pat.dropWhile (fun c => decide (c = '*'))
  let q := scanChunkAux false p
  (star, q.1, q.2)

/-- scanChunkAux splits its input into chunk ++ rest. -/
theorem scanChunkAux_append : ∀ (inrange : Bool) (p : List Char),
    (scanChunkAux inrange p).1 ++ (scanChunkAux inrange p).2 = p := by
  intro inrange p
  induction inrange, p using scanChunkAux.induct with
  | case1 inr => simp [scanChunkAux]
  | case2 inr =>
    rw [scanChunkAux.eq_def]
    simp
  | case3 inr d t2 ih =>
    rw [scanChunkAux.eq_def]
    simp [ih]
  | case4 inr t h ih =>
    rw [scanChunkAux.eq_def]
    simp [h, ih]
  | case5 inr t h1 h2 ih =>
    rw [scanChunkAux.eq_def]
    simp [h1, h2, ih]
  | case6 inr c t h1 h2 h3 h =>
    obtain ⟨hc, hi⟩ := h
    subst hc
    subst hi
    rw [scanChunkAux.eq_def]
    simp
  | case7 inr c t h1 h2 h3 h4 ih =>
    rw [scanChunkAux.eq_def]
    simp [h1, h2, h3, h4, ih]

/-- The rest returned by scanChunkAux is no longer than the input. -/
theorem scanChunkAux_rest_le (inrange : Bool) (p : List Char) :
    (scanChunkAux inrange p).2.length ≤ p.length := by
  have h := scanChunkAux_append inrange p
  have : ((scanChunkAux inrange p).1 ++ (scanChunkAux inrange p).2).length = p.length := by
    rw [h]
  simp only [List.length_append] at this
  omega

/-- Helper: the head of dropWhile does not satisfy the predicate. -/
theorem head_dropWhile_false (f : Char → Bool) :
    ∀ (l : List Char) (c : Char), (l.dropWhile f).head? = some c → f c = false := by
  intro l
  induction l with
  | nil => intro c h; simp at h
  | cons a t ih =>
    intro c h
    rw [List.dropWhile_cons] at h
    split at h
    · exact ih c h
    · simp only [List.head?_cons, Option.some.injEq] at h
      subst h
      rename_i hf
      simpa using hf

/-- When the remaining pattern does not begin with a star, scanChunkAux
consumes at least one character. -/
theorem scanChunkAux_no_star_lt : ∀ (p : List Char), p ≠ [] → p.head? ≠ some '*' →
    (scanChunkAux false p).2.length < p.length := by
  intro p hne hstar
  cases p with
  | nil => exact absurd rfl hne
  | cons c t =>
    simp only [List.head?_cons, ne_eq, Option.some.injEq] at hstar
    rw [scanChunkAux.eq_def]
    by_cases hbs : c = '\\'
    · subst hbs
      simp only [if_pos rfl]
      cases t with
      | nil => simp
      | cons d t2 =>
        have h1 := scanChunkAux_rest_le false t2
        simp
        omega
    · by_cases hlb : c = '['
      · subst hlb
        have h1 := scanChunkAux_rest_le true t
        simp [hbs]
        omega
      · by_cases hrb : c = ']'
        · subst hrb
          have h1 := scanChunkAux_rest_le false t
          simp [hbs, hlb]
          omega
        · have h1 := scanChunkAux_rest_le false t
          simp [hbs, hlb, hrb, hstar]
          omega

/-- Termination lemma for the Match loop: scanChunk consumes part of the pattern. -/
theorem scanChunk_rest_lt : ∀ (pat : List Char), pat ≠ [] →
    (scanChunk pat).2.2.length < pat.length := by
  intro pat hne
  unfold scanChunk
  simp only []
  by_cases hs : pat.head? = some '*'
  · cases pat with
    | nil => exact absurd rfl hne
    | cons c t =>
      simp only [List.head?_cons, Option.some.injEq] at hs
      subst hs
      rw [List.dropWhile_cons, if_pos (by simp)]
      have h1 : (t.dropWhile (fun c => decide (c = '*'))).length ≤ t.length :=
        (List.dropWhile_suffix _).length_le
      have h2 := scanChunkAux_rest_le false (t.dropWhile (fun c => decide (c = '*')))
      simp only [List.length_cons]
      omega
  · have hdw : pat.dropWhile (fun c => decide (c = '*')) = pat := by
      cases pat with
      | nil => rfl
      | cons c t =>
        simp only [List.head?_cons, Option.some.injEq] at hs
        rw [List.dropWhile_cons, if_neg (by simpa using hs)]
    rw [hdw]
    refine scanChunkAux_no_star_lt pat hne ?_
    intro hx
    cases pat with
    | nil => simp at hx
    | cons c t =>
      simp only [List.head?_cons, Option.some.injEq] at hx hs
      exact hs hx

/-- If scanChunk returns an empty chunk, the rest of the pattern is empty too
(the pattern consisted only of stars). -/
theorem scanChunk_chunk_nil : ∀ (pat : List Char),
    (scanChunk pat).2.1 = [] → (scanChunk pat).2.2 = [] := by
  intro pat h
  unfold scanChunk at h ⊢
  simp only [] at h ⊢
  have hhead : ∀ c, (pat.dropWhile (fun c => decide (c = '*'))).head? = some c → c ≠ '*' := by
    intro c hc hx
    have := head_dropWhile_false (fun c => decide (c = '*')) pat c hc
    subst hx
    simp at this
  cases hpc : pat.dropWhile (fun c => decide (c = '*')) with
  | nil => simp [scanChunkAux]
  | cons c t =>
    rw [hpc] at h
    have hcstar : c ≠ '*' := hhead c (by rw [hpc]; rfl)
    rw [scanChunkAux.eq_def] at h
    by_cases hbs : c = '\\'
    · subst hbs
      cases t with
      | nil => simp at h
      | cons d t2 => simp at h
    · by_cases hlb : c = '['
      · subst hlb
        simp [hbs] at h
      · by_cases hrb : c = ']'
        · subst hrb
          simp [hbs, hlb] at h
        · simp [hbs, hlb, hrb, hcstar] at h

/-- The inner star loop of Go filepath.Match: with a star before the current
chunk, try matching the chunk at each later position of the name, not
skipping past a '/'. .ok (some t) resumes the outer loop with name t;
.ok none means the loop ran out of name positions. -/
def starLoop (chunk rest : List Char) : List Char → Except Unit (Option (List Char))
  | [] => .ok none
  | c :: t =>
    if c = '/' then .ok none
    else
      match matchChunk chunk t false with
      | .error _ => .error ()
      | .ok (t2, ok) =>
        if ok then
          if rest = [] ∧ t2 ≠ [] then starLoop chunk rest t
          else .ok (some t2)
        else starLoop chunk rest t

/-- The final loop of Go filepath.Match before returning a mismatch: check
that the remainder of the pattern is syntactically valid (matchChunk against
the empty string chunk by chunk); .ok false is the non-error mismatch. -/
def validateRest (pat : List Char) : Except Unit Bool :=
  if h : pat = [] then .ok false
  else
    let q := scanChunk pat
    match matchChunk q.2.1 [] false with
    | .error _ => .error ()
    | .ok _ => validateRest q.2.2
termination_by pat.length
decreasing_by
  exact scanChunk_rest_lt pat h

/-- The main loop of Go filepath.Match(pattern, name) (unix Separator '/'). -/
def goMatchAux (pat name : List Char) : Except Unit Bool :=
  if h : pat = [] then .ok (decide (name = []))
  else
    let q := scanChunk pat
    if q.1 = true ∧ q.2.1 = [] then .ok (!containsGo name ['/'])
    else
      match matchChunk q.2.1 name false with
      | .error _ => .error ()
      | .ok (t, ok) =>
        if ok ∧ (t = [] ∨ q.2.2 ≠ []) then goMatchAux q.2.2 t
        else if q.1 then
          match starLoop q.2.1 q.2.2 name with
          | .error _ => .error ()
          | .ok (some t2) => goMatchAux q.2.2 t2
          | .ok none => validateRest q.2.2
        else validateRest q.2.2
termination_by pat.length
decreasing_by
  all_goals exact scanChunk_rest_lt pat h

/-- The call site in matchPath: `matched, _ := filepath.Match(pattern, path)`,
the error being discarded, so ErrBadPattern counts as no match. -/
def filepathMatch (pattern name : List Char) : Bool :=
  match goMatchAux pattern name with
  | .ok b => b
  | .error _ => false

/-- True when the Except carries ErrBadPattern. -/
def isErr {α : Type} : Except Unit α → Bool
  | .error _ => true
  | .ok _ => false

/-- A pattern on which filepath.Match reports ErrBadPattern: running Match's
own tail validation loop over the whole pattern hits a malformed chunk. -/
def badPattern (p : List Char) : Bool :=
  isErr (validateRest p)

/-- matchPath from main.go. Literal translation: exact equality first; a
pattern containing "**" goes through the Split-based cases — when the split
does not have exactly two parts none of the three branches applies and,
since such a pattern also contains "*", the single-star branch cannot apply
either, so the function returns false; a pattern with "*" but no "**" uses
filepath.Match with its error discarded. -/
def matchPath (path pattern : List Char) : Bool :=
  if path = pattern then true
  else if containsGo pattern ['*', '*'] then
    match splitGo ['*', '*'] pattern with
    | [p0, p1] =>
      if p0 = [] then
        let suf := trimOneLeadSlash p1
        if suf = [] then true
        else endsWith path suf || containsGo path ('/' :: suf)
      else if p1 = [] then
        let pre := trimOneTrailSlash p0
        startsWith path (pre ++ ['/']) || decide (path = pre)
      else
        let pre := trimOneTrailSlash p0
        let suf := trimOneLeadSlash p1
        if pre ≠ [] ∧ startsWith path pre = false then false
        else if suf ≠ [] ∧ endsWith path suf = false then false
        else true
    | _ => false
  else if containsGo pattern ['*'] && !containsGo pattern ['*', '*'] then
    filepathMatch pattern path
  else false

/-! ### parseGitLog from main.go: the line loop over the git log output.
The database inserts are modelled as append-only lists of emitted rows;
an insert error aborting the transaction is not modelled (no claim is about
insert failures). -/

/-- ASCII white space as recognised by Go strings.Fields (unicode.IsSpace
restricted to the ASCII range, which is all that git numstat output uses). -/
def isSpaceGo (c : Char) : Bool :=
  c = ' ' || c = '\t' || c = '\n' || c = '\x0b' || c = '\x0c' || c = '\r'

/-- Go strings.Fields: the maximal runs of non-space characters. -/
def fieldsGo (s : List Char) : List (List Char) :=
  let s1 := s.dropWhile isSpaceGo
  if h : s1 = [] then []
  else
    s1.takeWhile (fun x => !isSpaceGo x) :: fieldsGo (s1.dropWhile (fun x => !isSpaceGo x))
termination_by s.length
decreasing_by
  have h0 : (s.dropWhile isSpaceGo).length ≤ s.length := (List.dropWhile_suffix _).length_le
  rcases hd : s.dropWhile isSpaceGo with _ | ⟨c, t⟩
  · exact absurd hd h
  · have h1 : isSpaceGo c = false := by
      have := head_dropWhile_false isSpaceGo s
      rw [hd] at this
      exact this c rfl
    have h2 : (c :: t).dropWhile (fun x => !isSpaceGo x) = t.dropWhile (fun x => !isSpaceGo x) := by
      rw [List.dropWhile_cons, if_pos (by simp [h1])]
    simp only [s1, hd, h2]
    have h3 : (t.dropWhile (fun x => !isSpaceGo x)).length ≤ t.length :=
      (List.dropWhile_suffix _).length_le
    rw [hd] at h0
    simp only [List.length_cons] at h0
    omega

/-- Decimal digit accumulator of Go strconv.Atoi (overflow, which cannot
occur for line counts, is not modelled). -/
def digitsAux (acc : Nat) : List Char → Option Nat
  | [] => some acc
  | c :: t => if c.isDigit then digitsAux (acc * 10 + (c.toNat - 48)) t else none

/-- Go strconv.Atoi: optional sign then one or more digits, nothing else. -/
def atoiGo (s : List Char) : Option Int :=
  match s with
  | [] => none
  | '+' :: t => if t = [] then none else (digitsAux 0 t).map Int.ofNat
  | '-' :: t => if t = [] then none else (digitsAux 0 t).map (fun n => -(Int.ofNat n))
  | _ => (digitsAux 0 s).map Int.ofNat

/-- The components of a parsed commit timestamp. -/
structure GoTime where
  year : Nat
  month : Nat
  day : Nat
  hour : Nat
  minute : Nat
  second : Nat
  tzMinutes : Int
deriving DecidableEq

/-- Exactly two decimal digits. -/
def getNum2 : List Char → Option (Nat × List Char)
  | c1 :: c2 :: t =>
    if c1.isDigit && c2.isDigit then some ((c1.toNat - 48) * 10 + (c2.toNat - 48), t)
    else none
  | _ => none

/-- One or two decimal digits (Go's getnum with fixed=false, used for the hour). -/
def getNum12 : List Char → Option (Nat × List Char)
  | [] => none
  | [c1] => if c1.isDigit then some (c1.toNat - 48, []) else none
  | c1 :: c2 :: t =>
    if c1.isDigit then
      if c2.isDigit then some ((c1.toNat - 48) * 10 + (c2.toNat - 48), t)
      else some (c1.toNat - 48, c2 :: t)
    else none

/-- Exactly four decimal digits (the year field). -/
def getNum4 : List Char → Option (Nat × List Char)
  | c1 :: c2 :: c3 :: c4 :: t =>
    if c1.isDigit && c2.isDigit && c3.isDigit && c4.isDigit then
      some ((c1.toNat - 48) * 1000 + (c2.toNat - 48) * 100 + (c3.toNat - 48) * 10
        + (c4.toNat - 48), t)
    else none
  | _ => none

/-- One fixed literal character of the layout. -/
def litChar (c : Char) : List Char → Option (List Char)
  | d :: t => if d = c then some t else none
  | [] => none

/-- Gregorian leap year. -/
def isLeap (y : Nat) : Bool :=
  (y % 4 = 0 && y % 100 ≠ 0) || y % 400 = 0

/-- Days in a month, as Go's time package uses for the day range check. -/
def daysIn (month year : Nat) : Nat :=
  if month = 2 then (if isLeap year then 29 else 28)
  else if month = 4 ∨ month = 6 ∨ month = 9 ∨ month = 11 then 30
  else 31

/-- Go time.Parse("2006-01-02 15:04:05 -0700", s) as called in parseGitLog:
fixed-width numeric fields (the hour may be one or two digits, as in Go's
non-fixed getnum), literal separators, a signed 4-digit numeric zone, no
trailing text, and the range checks Go performs on month, day, hour, minute
and second. Byte-level leniencies of time.Parse that git never emits
(e.g. a signed year) are not modelled. -/
def parseTime (s : List Char) : Option GoTime := do
  let (year, s1) ← getNum4 s
  let s2 ← litChar '-' s1
  let (month, s3) ← getNum2 s2
  let s4 ← litChar '-' s3
  let (day, s5) ← getNum2 s4
  let s6 ← litChar ' ' s5
  let (hour, s7) ← getNum12 s6
  let s8 ← litChar ':' s7
  let (minute, s9) ← getNum2 s8
  let s10 ← litChar ':' s9
  let (second, s11) ← getNum2 s10
  let s12 ← litChar ' ' s11
  match s12 with
  | sign :: z1 :: z2 :: z3 :: z4 :: rest =>
    if (sign = '+' ∨ sign = '-') && z1.isDigit && z2.isDigit && z3.isDigit && z4.isDigit
        && rest.isEmpty
        && decide (1 ≤ month) && decide (month ≤ 12)
        && decide (1 ≤ day) && decide (day ≤ daysIn month year)
        && decide (hour < 24) && decide (minute < 60) && decide (second < 60) then
      some { year := year, month := month, day := day, hour := hour, minute := minute,
             second := second,
             tzMinutes := (if sign = '-' then -1 else 1) *
               (((z1.toNat - 48) * 10 + (z2.toNat - 48)) * 60
                 + ((z3.toNat - 48) * 10 + (z4.toNat - 48)) : Nat) }
    else none
  | _ => none

/-- A commit as inserted by parseGitLog. -/
structure GCommit where
  hash : List Char
  author : List Char
  email : List Char
  date : GoTime
  message : List Char
deriving DecidableEq

/-- A file_changes row as inserted by parseGitLog. -/
structure GFileChange where
  commitHash : List Char
  filepath : List Char
  additions : Int
  deletions : Int
  changeType : List Char
deriving DecidableEq

/-- The loop state of parseGitLog: currentCommit, the rows inserted so far
(commits and file_changes within the transaction), and the commitCount
counter used only for verbose logging. -/
structure PState where
  current : Option GCommit
  commits : List GCommit
  files : List GFileChange
  commitCount : Nat
deriving DecidableEq

/-- One iteration of the scanner loop of parseGitLog (main.go lines 318-392):
header lines contain the NUL delimiter and are split on it; fewer than 5
fields or an unparsable timestamp discard the line; otherwise the commit is
inserted and becomes current. Other lines are stat lines: skipped when there
is no current commit, the line is blank, it has fewer than 3 fields, or the
counts are not numeric; rename lines (5+ fields with "=>" as 4th) record the
5th field as the path with type "R"; otherwise the 3rd field is recorded
with type inferred from the counts. -/
def processLine (st : PState) (line : List Char) : PState :=
  if containsGo line ['\x00'] then
    let st1 := if st.current.isSome then { st with commitCount := st.commitCount + 1 } else st
    let parts := splitGo ['\x00'] line
    if parts.length < 5 then st1
    else
      match parseTime (parts.getD 3 []) with
      | none => st1
      | some d =>
        let c : GCommit :=
          { hash := parts.getD 0 [], author := parts.getD 1 [], email := parts.getD 2 [],
            date := d, message := parts.getD 4 [] }
        { st1 with current := some c, commits := st1.commits ++ [c] }
  else
    match st.current with
    | none => st
    | some cur =>
      if line = [] then st
      else
        let parts := fieldsGo line
        if parts.length < 3 then st
        else
          match atoiGo (parts.getD 0 []), atoiGo (parts.getD 1 []) with
          | some adds, some dels =>
            if 5 ≤ parts.length ∧ parts.getD 3 [] = ['=', '>'] then
              { st with files := st.files ++
                  [{ commitHash := cur.hash, filepath := parts.getD 4 [],
                     additions := adds, deletions := dels, changeType := ['R'] }] }
            else
              { st with files := st.files ++
                  [{ commitHash := cur.hash, filepath := parts.getD 2 [],
                     additions := adds, deletions := dels,
                     changeType :=
                       if adds > 0 ∧ dels = 0 then ['A']
                       else if adds = 0 ∧ dels > 0 then ['D']
                       else ['M'] }] }
          | _, _ => st

/-- Split on newline characters (no merging of adjacent separators). -/
def splitNL : List Char → List (List Char)
  | [] => [[]]
  | c :: t =>
    if c = '\n' then [] :: splitNL t
    else
      match splitNL t with
      | [] => [[c]]
      | p :: ps => (c :: p) :: ps

/-- bufio.ScanLines drops one carriage return before the newline. -/
def dropCR (l : List Char) : List Char :=
  if endsWith l ['\r'] then l.dropLast else l

/-- The lines bufio.Scanner yields for the output text: newline-separated,
carriage returns stripped, no empty token after a trailing newline, and no
token at all for empty input. -/
def gitLines (s : List Char) : List (List Char) :=
  let ps := splitNL s
  (if ps.getLast? = some [] then ps.dropLast else ps).map dropCR

/-- parseGitLog from main.go as a fold of processLine over the scanner lines,
starting with no current commit and nothing inserted. -/
def parseGitLog (output : List Char) : PState :=
  (gitLines output).foldl processLine ⟨none, [], [], 0⟩

/-! ### computeComponentContributions from main.go (lines 401-520).
The SQL join (commits JOIN file_changes for one repository) is modelled as a
given list of rows; the in-memory contributions map keyed by
(componentID, repositoryID, email) is modelled as an association list, and
the per-key commits set (Go map[string]bool) as its list of keys. Go's map
iteration order is unspecified; the association lists keep insertion order,
which none of the verified properties depend on. -/

/-- One row of the aggregation query:
hash, author, email, additions, deletions, filepath. -/
structure Row where
  hash : List Char
  author : List Char
  email : List Char
  additions : Int
  deletions : Int
  filepath : List Char
deriving DecidableEq

/-- The per-key accumulator of the contributions map. -/
structure Contrib where
  author : List Char
  commits : List (List Char)
  additions : Int
  deletions : Int
deriving DecidableEq

/-- The zero value a Go map read returns for an absent key (with the nil
commits map standing for the empty set). -/
def emptyContrib : Contrib :=
  { author := [], commits := [], additions := 0, deletions := 0 }

/-- Association list lookup (Go map read with ok-flag). -/
def lookupA {α β : Type} [DecidableEq α] (k : α) : List (α × β) → Option β
  | [] => none
  | (k1, v) :: t => if k = k1 then some v else lookupA k t

/-- Association list store (Go map write). -/
def upsertA {α β : Type} [DecidableEq α] (k : α) (v : β) : List (α × β) → List (α × β)
  | [] => [(k, v)]
  | (k1, v1) :: t => if k = k1 then (k, v) :: t else (k1, v1) :: upsertA k v t

/-- contrib.commits[hash] = true: add a hash to the commits set. -/
def insertHash (h : List Char) (s : List (List Char)) : List (List Char) :=
  if h ∈ s then s else s ++ [h]

/-- The update applied to one key's accumulator for one matched row
(main.go lines 476-484). -/
def applyRow (c : Contrib) (r : Row) : Contrib :=
  { author := r.author, commits := insertHash r.hash c.commits,
    additions := c.additions + r.additions, deletions := c.deletions + r.deletions }

/-- One iteration of the row scan for a (component, repository) group: if any
pattern of the group matches the row's filepath, fold the row into the
accumulator at key (componentID, repositoryID, email). -/
def stepRow (cid rid : Nat) (pats : List (List Char))
    (m : List ((Nat × Nat × List Char) × Contrib)) (r : Row) :
    List ((Nat × Nat × List Char) × Contrib) :=
  if pats.any (fun p => matchPath r.filepath p) then
    let k := (cid, rid, r.email)
    upsertA k (applyRow ((lookupA k m).getD emptyContrib) r) m
  else m

/-- The row scan of one (component, repository) group. -/
def scanGroup (cid rid : Nat) (pats : List (List Char)) (rows : List Row)
    (m : List ((Nat × Nat × List Char) × Contrib)) :
    List ((Nat × Nat × List Char) × Contrib) :=
  rows.foldl (stepRow cid rid pats) m

/-- patterns[repoName] = append(patterns[repoName], pathPattern). -/
def addRepoPat (m : List (List Char × List (List Char))) (rn pp : List Char) :
    List (List Char × List (List Char)) :=
  match m with
  | [] => [(rn, [pp])]
  | (k, v) :: t => if k = rn then (k, v ++ [pp]) :: t else (k, v) :: addRepoPat t rn pp

/-- One pattern entry of a component: entries without the colon separator
are skipped (main.go lines 423-431). -/
def patEntryStep (m : List (List Char × List (List Char))) (p : List Char) :
    List (List Char × List (List Char)) :=
  match splitColon p with
  | none => m
  | some (rn, pp) => addRepoPat m rn pp

/-- The patterns-by-repository map of one component. -/
def buildPatterns (paths : List (List Char)) : List (List Char × List (List Char)) :=
  paths.foldl patEntryStep []

/-- Processing of one (repoName, patterns) group: a repository name absent
from repoIDs is skipped (main.go lines 433-437); otherwise the group's rows
are scanned. rowsOf gives the joined rows of each repository id. -/
def groupStep (repoIDs : List (List Char × Nat)) (rowsOf : Nat → List Row) (cid : Nat)
    (m : List ((Nat × Nat × List Char) × Contrib)) (g : List Char × List (List Char)) :
    List ((Nat × Nat × List Char) × Contrib) :=
  match lookupA g.1 repoIDs with
  | none => m
  | some rid => scanGroup cid rid g.2 (rowsOf rid) m

/-- The contributions accumulated by one component of
computeComponentContributions: build the per-repository pattern groups,
then scan each group's rows. -/
def processComponent (repoIDs : List (List Char × Nat)) (rowsOf : Nat → List Row)
    (cid : Nat) (paths : List (List Char))
    (m : List ((Nat × Nat × List Char) × Contrib)) :
    List ((Nat × Nat × List Char) × Contrib) :=
  (buildPatterns paths).foldl (groupStep repoIDs rowsOf cid) m

/-! ### Support lemmas for the string operations and the matcher. -/

theorem startsWith_iff : ∀ (s pre : List Char), startsWith s pre = true ↔ pre <+: s := by
  intro s pre
  induction pre generalizing s with
  | nil => simp [startsWith]
  | cons d u ih =>
    cases s with
    | nil => simp [startsWith]
    | cons c t =>
      simp only [startsWith, Bool.and_eq_true, decide_eq_true_eq, List.cons_prefix_cons]
      constructor
      · intro ⟨h1, h2⟩
        exact ⟨h1.symm, (ih t).mp h2⟩
      · intro ⟨h1, h2⟩
        exact ⟨h1.symm, (ih t).mpr h2⟩

theorem endsWith_iff : ∀ (s suf : List Char), endsWith s suf = true ↔ suf <:+ s := by
  intro s suf
  unfold endsWith
  rw [startsWith_iff]
  exact List.reverse_prefix

theorem containsGo_nil_unfold (sub : List Char) :
    containsGo [] sub = if startsWith [] sub then true else false := by
  rw [containsGo.eq_def]

theorem containsGo_cons_unfold (c : Char) (t sub : List Char) :
    containsGo (c :: t) sub =
      if startsWith (c :: t) sub then true else containsGo t sub := by
  rw [containsGo.eq_def]

theorem containsGo_of_startsWith (s sub : List Char) (h : startsWith s sub = true) :
    containsGo s sub = true := by
  cases s with
  | nil => rw [containsGo_nil_unfold, if_pos h]
  | cons c t => rw [containsGo_cons_unfold, if_pos h]

theorem splitGo_of_startsWith (sep s : List Char) (h1 : sep ≠ []) (h2 : startsWith s sep = true) :
    splitGo sep s = [] :: splitGo sep (s.drop sep.length) := by
  rw [splitGo]
  rw [dif_pos ⟨h1, h2⟩]

theorem splitGo_nil (sep : List Char) (h1 : sep ≠ []) : splitGo sep [] = [[]] := by
  rw [splitGo]
  have h2 : startsWith [] sep = false := by
    cases sep with
    | nil => exact absurd rfl h1
    | cons d u => simp [startsWith]
  rw [dif_neg (by simp [h2])]

theorem splitGo_cons (sep : List Char) (c : Char) (t : List Char)
    (h2 : startsWith (c :: t) sep = false) :
    splitGo sep (c :: t) =
      match splitGo sep t with
      | [] => [[c]]
      | p :: ps => (c :: p) :: ps := by
  rw [splitGo]
  rw [dif_neg (by simp [h2])]

theorem splitGo_ne_nil : ∀ (sep s : List Char), splitGo sep s ≠ [] := by
  intro sep s
  rw [splitGo]
  split
  · simp
  · split
    · simp
    · split <;> simp

theorem splitGo_not_contains : ∀ (s sub : List Char), sub ≠ [] →
    containsGo s sub = false → splitGo sub s = [s] := by
  intro s sub hne
  induction s with
  | nil => intro _; exact splitGo_nil sub hne
  | cons c t ih =>
    intro h
    rw [containsGo_cons_unfold] at h
    split at h
    · exact absurd h (by simp)
    · rename_i hsw
      rw [splitGo_cons sub c t (by simpa using hsw)]
      rw [ih h]

theorem contains_of_splitGo_len (s sub : List Char) (hne : sub ≠ [])
    (h : 2 ≤ (splitGo sub s).length) : containsGo s sub = true := by
  by_contra hc
  have hc2 : containsGo s sub = false := by
    cases hx : containsGo s sub
    · rfl
    · exact absurd hx hc
  rw [splitGo_not_contains s sub hne hc2] at h
  simp at h

theorem startsWith_append_self : ∀ (pre r : List Char), startsWith (pre ++ r) pre = true := by
  intro pre r
  induction pre with
  | nil => simp [startsWith]
  | cons c t ih => simpa [startsWith] using ih

theorem trimOneLeadSlash_suffix (s : List Char) : trimOneLeadSlash s <:+ s := by
  unfold trimOneLeadSlash
  split
  · exact List.suffix_cons _ _
  · exact List.suffix_refl _

/-- Claim C1 as stated is false: the code splits the pattern at every
occurrence of "**" (strings.Split), so a pattern with more than one "**"
yields three or more parts, matches none of the two-part branches, and falls
through to return only exact equality. The path "a/x/b/**/c" starts with "a"
and ends with the literal text "b/**/c", yet "a/**/b/**/c" does not match it. -/
theorem c1_counterexample :
    matchPath ("a/x/b/**/c".toList) ("a/**/b/**/c".toList) = false ∧
    startsWith ("a/x/b/**/c".toList) ("a".toList) = true ∧
    endsWith ("a/x/b/**/c".toList) ("b/**/c".toList) = true := by
  refine ⟨?_, by decide, by decide⟩
  simp [matchPath, containsGo_cons_unfold, containsGo_nil_unfold,
    splitGo_of_startsWith, splitGo_cons, splitGo_nil, startsWith]

/-- Claim C1 (amended): a pattern on which the "**"-split yields three or more
parts (i.e. more than one occurrence of "**") matches exactly the path equal
to the pattern string; the prefix/suffix rule is not applied to it at all. -/
theorem c1_theorem (path pattern : List Char)
    (h : 3 ≤ (splitGo ['*', '*'] pattern).length) :
    matchPath path pattern = decide (path = pattern) := by
  by_cases hpq : path = pattern
  · subst hpq
    simp [matchPath]
  · have hc : containsGo pattern ['*', '*'] = true :=
      contains_of_splitGo_len _ _ (by simp) (by omega)
    unfold matchPath
    rw [if_neg hpq, if_pos hc]
    rcases hsp : splitGo ['*', '*'] pattern with _ | ⟨a, u⟩
    · exact absurd hsp (splitGo_ne_nil _ _)
    · rcases u with _ | ⟨b, v⟩
      · rw [hsp] at h; simp at h
      · rcases v with _ | ⟨c, w⟩
        · rw [hsp] at h; simp at h
        · simp [hpq]

/-- Witness for C1's theorem at the counterexample pattern. -/
theorem c1_witness :
    matchPath ("a/x/b/**/c".toList) ("a/**/b/**/c".toList) =
      decide (("a/x/b/**/c".toList) = ("a/**/b/**/c".toList)) :=
  c1_theorem ("a/x/b/**/c".toList) ("a/**/b/**/c".toList)
    (by simp [splitGo_of_startsWith, splitGo_cons, splitGo_nil, startsWith])

/-- Claim C2 as stated is false: for a "**" + suffix pattern the code tests
strings.Contains(path, "/" + suffix), which accepts an occurrence anywhere
in the path, not only a trailing one. "a/c.go/b" neither ends with "c.go"
nor ends with "/c.go", yet "**/c.go" matches it. -/
theorem c2_counterexample :
    matchPath ("a/c.go/b".toList) ("**/c.go".toList) = true ∧
    endsWith ("a/c.go/b".toList) ("c.go".toList) = false ∧
    endsWith ("a/c.go/b".toList) ("/c.go".toList) = false := by
  refine ⟨?_, by decide, by decide⟩
  simp [matchPath, containsGo_cons_unfold, containsGo_nil_unfold,
    splitGo_of_startsWith, splitGo_cons, splitGo_nil, startsWith, trimOneLeadSlash,
    endsWith]

/-- Claim C2 (amended): for a pattern "**" ++ s (s containing no further "**")
whose suffix S - s with one leading '/' stripped - is non-empty, matchPath
returns true iff the path ends with S or contains "/" ++ S anywhere (not
necessarily at the end). -/
theorem c2_theorem (path s1 : List Char) (h1 : containsGo s1 ['*', '*'] = false)
    (h2 : trimOneLeadSlash s1 ≠ []) :
    matchPath path ('*' :: '*' :: s1) =
      (endsWith path (trimOneLeadSlash s1) ||
        containsGo path ('/' :: trimOneLeadSlash s1)) := by
  have hsw : startsWith ('*' :: '*' :: s1) ['*', '*'] = true := by simp [startsWith]
  have hc : containsGo ('*' :: '*' :: s1) ['*', '*'] = true :=
    containsGo_of_startsWith _ _ hsw
  have hsp : splitGo ['*', '*'] ('*' :: '*' :: s1) = [[], s1] := by
    rw [splitGo_of_startsWith _ _ (by simp) hsw]
    rw [show ('*' :: '*' :: s1).drop (['*', '*'].length) = s1 from rfl]
    rw [splitGo_not_contains s1 ['*', '*'] (by simp) h1]
  by_cases hpq : path = '*' :: '*' :: s1
  · subst hpq
    have hsuf : trimOneLeadSlash s1 <:+ ('*' :: '*' :: s1) :=
      (trimOneLeadSlash_suffix s1).trans
        ((List.suffix_cons '*' s1).trans (List.suffix_cons '*' ('*' :: s1)))
    have hend : endsWith ('*' :: '*' :: s1) (trimOneLeadSlash s1) = true :=
      (endsWith_iff _ _).mpr hsuf
    simp [matchPath, hend]
  · unfold matchPath
    rw [if_neg hpq, if_pos hc, hsp]
    simp [h2]

/-- Witness for C2's theorem: the spec's own example pattern. -/
theorem c2_witness :
    matchPath ("a/b/c.go".toList) ("**/c.go".toList) =
      (endsWith ("a/b/c.go".toList) (trimOneLeadSlash ("/c.go".toList)) ||
        containsGo ("a/b/c.go".toList) ('/' :: trimOneLeadSlash ("/c.go".toList))) :=
  c2_theorem ("a/b/c.go".toList) ("/c.go".toList) (by decide) (by decide)

/-- Claim C5 as stated is false on one boundary case: matchPath returns true
for a path exactly equal to the pattern string, and for a prefix pattern
written without a slash before the "**" (such as "src**") that path neither
equals the prefix nor starts with prefix + "/". -/
theorem c5_counterexample :
    splitGo ['*', '*'] ("src**".toList) = ["src".toList, []] ∧
    matchPath ("src**".toList) ("src**".toList) = true ∧
    ¬(("src**".toList) = trimOneTrailSlash ("src".toList)) ∧
    startsWith ("src**".toList) (trimOneTrailSlash ("src".toList) ++ ['/']) = false := by
  refine ⟨?_, by simp [matchPath], by decide, by decide⟩
  simp [splitGo_of_startsWith, splitGo_cons, splitGo_nil, startsWith]

/-- Claim C5 (amended): for a pattern whose "**"-split is a non-empty prefix
part and an empty suffix part, matchPath returns true iff the path equals the
pattern itself, or starts with (prefix with one trailing '/' stripped) + "/",
or equals that stripped prefix. -/
theorem c5_theorem (path pattern p0 : List Char)
    (hsp : splitGo ['*', '*'] pattern = [p0, []]) (hp0 : p0 ≠ []) :
    matchPath path pattern =
      (decide (path = pattern) ||
        (startsWith path (trimOneTrailSlash p0 ++ ['/']) ||
          decide (path = trimOneTrailSlash p0))) := by
  have hc : containsGo pattern ['*', '*'] = true :=
    contains_of_splitGo_len _ _ (by simp) (by rw [hsp]; simp)
  by_cases hpq : path = pattern
  · simp [matchPath, hpq]
  · unfold matchPath
    rw [if_neg hpq, if_pos hc, hsp]
    simp [hp0, hpq]

/-- Witness for C5's theorem: the spec's boundary example, where the slash
boundary is respected. -/
theorem c5_witness :
    matchPath ("src/apiextra/x.go".toList) ("src/api/**".toList) =
      (decide (("src/apiextra/x.go".toList) = ("src/api/**".toList)) ||
        (startsWith ("src/apiextra/x.go".toList)
            (trimOneTrailSlash ("src/api/".toList) ++ ['/']) ||
          decide (("src/apiextra/x.go".toList) = trimOneTrailSlash ("src/api/".toList)))) :=
  c5_theorem ("src/apiextra/x.go".toList) ("src/api/**".toList) ("src/api/".toList)
    (by simp [splitGo_of_startsWith, splitGo_cons, splitGo_nil, startsWith]) (by decide)

/-- The class loop's error outcome and returned rest do not depend on the
name character or the accumulated match flag: only the match flag varies. -/
theorem parseClass_ok_transfer : ∀ k ch, ch.length ≤ k → ∀ n r1 m1 b rest r2 m2,
    parseClass r1 m1 n ch = .ok (b, rest) → ∃ b2, parseClass r2 m2 n ch = .ok (b2, rest) := by
  intro k
  induction k with
  | zero =>
    intro ch hk n r1 m1 b rest r2 m2 h
    have hc : ch = [] := by
      cases ch
      · rfl
      · simp at hk
    subst hc
    rw [parseClass] at h
    simp [getEsc] at h
  | succ kn ih =>
    intro ch hk n r1 m1 b rest r2 m2 h
    rw [parseClass] at h
    split at h
    · rename_i hcond
      simp only [Except.ok.injEq, Prod.mk.injEq] at h
      refine ⟨m2, ?_⟩
      rw [parseClass, if_pos hcond, h.2]
    · rename_i hcond
      split at h
      · simp at h
      · rename_i lo ch1 hlo
        split at h
        · simp at h
        · rename_i hi ch2 hhi
          have hlen : ch2.length ≤ kn := by
            have hl1 : ch1.length < ch.length := getEsc_lt ch lo ch1 hlo
            have hl2 : ch2.length ≤ ch1.length := by
              split at hhi
              · have := getEsc_lt ch1.tail hi ch2 hhi
                have : ch1.tail.length ≤ ch1.length := by cases ch1 <;> simp
                omega
              · simp only [Except.ok.injEq, Prod.mk.injEq] at hhi
                obtain ⟨-, h2⟩ := hhi
                subst h2
                omega
            omega
          obtain ⟨b2, hb2⟩ :=
            ih ch2 hlen (n + 1) r1 _ b rest r2
              (m2 || (decide (lo ≤ r2) && decide (r2 ≤ hi))) h
          refine ⟨b2, ?_⟩
          rw [parseClass, if_neg hcond]
          split
          · rename_i e heq
            rw [hlo] at heq
            simp at heq
          · rename_i lo2 ch12 heq
            rw [hlo] at heq
            simp only [Except.ok.injEq, Prod.mk.injEq] at heq
            obtain ⟨he1, he2⟩ := heq
            subst he1
            subst he2
            split
            · rename_i e heq2
              rw [hhi] at heq2
              simp at heq2
            · rename_i hi2 ch22 heq2
              rw [hhi] at heq2
              simp only [Except.ok.injEq, Prod.mk.injEq] at heq2
              obtain ⟨hf1, hf2⟩ := heq2
              subst hf1
              subst hf2
              exact hb2

/-! Unfolding equations for the well-founded definitions of the Match
embedding, in a form usable for rewriting and concrete evaluation. -/

theorem matchChunk_nil_eqn (s : List Char) (f : Bool) :
    matchChunk [] s f = if f then .ok ([], false) else .ok (s, true) := by
  rw [matchChunk.eq_def]

theorem matchChunk_class_eqn (ct s : List Char) (f : Bool) :
    matchChunk ('[' :: ct) s f =
      (match parseClass (if f || s.isEmpty then '\x00' else s.headD '\x00') false 0
          (if ct.head? = some '^' then ct.tail else ct) with
       | .error _ => .error ()
       | .ok (mt, ct2) =>
          matchChunk ct2 (if f || s.isEmpty then s else s.tail)
            ((f || s.isEmpty) || decide (mt = decide (ct.head? = some '^')))) := by
  rw [matchChunk.eq_def]
  simp only [if_true]
  split
  · rename_i e heq
    rw [heq]
  · rename_i mt ct2 heq
    rw [heq]

theorem matchChunk_quest_eqn (ct s : List Char) (f : Bool) :
    matchChunk ('?' :: ct) s f =
      (if f || s.isEmpty then matchChunk ct s (f || s.isEmpty)
       else matchChunk ct s.tail (decide (s.headD '\x00' = '/'))) := by
  rw [matchChunk.eq_def]
  rfl

theorem matchChunk_bs_eqn (ct s : List Char) (f : Bool) :
    matchChunk ('\\' :: ct) s f =
      (match ct with
       | [] => .error ()
       | d :: ct2 =>
         if f || s.isEmpty then matchChunk ct2 s (f || s.isEmpty)
         else matchChunk ct2 s.tail (decide (d ≠ s.headD '\x00'))) := by
  rw [matchChunk.eq_def]
  rfl

theorem matchChunk_other_eqn (c : Char) (ct s : List Char) (f : Bool)
    (h1 : c ≠ '[') (h2 : c ≠ '?') (h3 : c ≠ '\\') :
    matchChunk (c :: ct) s f =
      (if f || s.isEmpty then matchChunk ct s (f || s.isEmpty)
       else matchChunk ct s.tail (decide (c ≠ s.headD '\x00'))) := by
  rw [matchChunk.eq_def]
  simp only [if_neg h1, if_neg h2, if_neg h3]

theorem validateRest_eqn (pat : List Char) :
    validateRest pat =
      (if pat = [] then .ok false
       else
         match matchChunk (scanChunk pat).2.1 [] false with
         | .error _ => .error ()
         | .ok _ => validateRest (scanChunk pat).2.2) := by
  rw [validateRest]
  split
  · rfl
  · rfl

theorem goMatchAux_eqn (pat name : List Char) :
    goMatchAux pat name =
      (if pat = [] then .ok (decide (name = []))
       else if (scanChunk pat).1 = true ∧ (scanChunk pat).2.1 = [] then
         .ok (!containsGo name ['/'])
       else
         match matchChunk (scanChunk pat).2.1 name false with
         | .error _ => .error ()
         | .ok (t, ok) =>
           if ok ∧ (t = [] ∨ (scanChunk pat).2.2 ≠ []) then goMatchAux (scanChunk pat).2.2 t
           else if (scanChunk pat).1 then
             match starLoop (scanChunk pat).2.1 (scanChunk pat).2.2 name with
             | .error _ => .error ()
             | .ok (some t2) => goMatchAux (scanChunk pat).2.2 t2
             | .ok none => validateRest (scanChunk pat).2.2
           else validateRest (scanChunk pat).2.2) := by
  rw [goMatchAux]
  split
  · rfl
  · rfl

theorem matchChunk_bs_cons_eqn (d : Char) (ct2 s : List Char) (f : Bool) :
    matchChunk ('\\' :: d :: ct2) s f =
      (if f || s.isEmpty then matchChunk ct2 s (f || s.isEmpty)
       else matchChunk ct2 s.tail (decide (d ≠ s.headD '\x00'))) := by
  rw [matchChunk_bs_eqn]

/-- matchChunk's success or failure as an Except (error vs ok) depends only on
the chunk, not on the name or the failed flag: if it returns ok for one
(name, flag) pair it returns ok for every other. -/
theorem matchChunk_ok_transfer : ∀ (chunk s0 : List Char) (f0 : Bool),
    ∀ s1 f1 t1 o1 s2 f2, matchChunk chunk s1 f1 = .ok (t1, o1) →
      ∃ t2 o2, matchChunk chunk s2 f2 = .ok (t2, o2) := by
  intro chunk s0 f0
  induction chunk, s0, f0 using matchChunk.induct with
  | case1 =>
    intro s1 f1 t1 o1 s2 f2 h
    rw [matchChunk_nil_eqn]
    split <;> exact ⟨_, _, rfl⟩
  | case2 =>
    intro s1 f1 t1 o1 s2 f2 h
    rw [matchChunk_nil_eqn]
    split <;> exact ⟨_, _, rfl⟩
  | case3 =>
    rename_i ct fl r1 ct1 e hpc
    intro s1 f1 t1 o1 s2 f2 h
    rw [matchChunk_class_eqn] at h
    split at h
    · simp at h
    · rename_i mt ct2 heq
      have heq2 : parseClass (if f1 || s1.isEmpty then '\x00' else s1.headD '\x00')
          false 0 ct1 = .ok (mt, ct2) := heq
      obtain ⟨b2, hb2⟩ :=
        parseClass_ok_transfer ct1.length ct1 (le_refl _) 0 _ false mt ct2 r1 false heq2
      rw [hpc] at hb2
      simp at hb2
  | case4 =>
    rename_i ct fl r1 sx ng ct1 mt0 ct20 hpc ih
    intro s1 f1 t1 o1 s2 f2 h
    rw [matchChunk_class_eqn] at h
    split at h
    · simp at h
    · rename_i mt1 ct21 heq1
      have heq2 : parseClass (if f1 || s1.isEmpty then '\x00' else s1.headD '\x00')
          false 0 ct1 = .ok (mt1, ct21) := heq1
      obtain ⟨b2, hb2⟩ :=
        parseClass_ok_transfer ct1.length ct1 (le_refl _) 0 _ false mt1 ct21 r1 false heq2
      rw [hpc] at hb2
      simp only [Except.ok.injEq, Prod.mk.injEq] at hb2
      obtain ⟨-, hc2⟩ := hb2
      subst hc2
      obtain ⟨b3, hb3⟩ :=
        parseClass_ok_transfer ct1.length ct1 (le_refl _) 0 r1 false mt0 ct20
          (if f2 || s2.isEmpty then '\x00' else s2.headD '\x00') false hpc
      obtain ⟨t2, o2, hm2⟩ :=
        ih _ _ _ _ (if f2 || s2.isEmpty then s2 else s2.tail)
          ((f2 || s2.isEmpty) || decide (b3 = decide (ct.head? = some '^'))) h
      refine ⟨t2, o2, ?_⟩
      rw [matchChunk_class_eqn]
      split
      · rename_i e2 heqG
        have heqG2 : parseClass (if f2 || s2.isEmpty then '\x00' else s2.headD '\x00')
            false 0 ct1 = .error e2 := heqG
        rw [heqG2] at hb3
        simp at hb3
      · rename_i mtG ct2G heqG
        have heqG2 : parseClass (if f2 || s2.isEmpty then '\x00' else s2.headD '\x00')
            false 0 ct1 = .ok (mtG, ct2G) := heqG
        rw [heqG2] at hb3
        simp only [Except.ok.injEq, Prod.mk.injEq] at hb3
        obtain ⟨hm, hcc⟩ := hb3
        subst hm
        subst hcc
        exact hm2
  | case5 =>
    rename_i ct fl hfa hne ih
    intro s1 f1 t1 o1 s2 f2 h
    rw [matchChunk_quest_eqn] at h
    rw [matchChunk_quest_eqn]
    split at h
    · by_cases hc2 : (f2 || s2.isEmpty) = true
      · rw [if_pos hc2]; exact ih _ _ _ _ _ _ h
      · rw [if_neg hc2]; exact ih _ _ _ _ _ _ h
    · by_cases hc2 : (f2 || s2.isEmpty) = true
      · rw [if_pos hc2]; exact ih _ _ _ _ _ _ h
      · rw [if_neg hc2]; exact ih _ _ _ _ _ _ h
  | case6 =>
    rename_i ct fl hfa hne ih
    intro s1 f1 t1 o1 s2 f2 h
    rw [matchChunk_quest_eqn] at h
    rw [matchChunk_quest_eqn]
    split at h
    · by_cases hc2 : (f2 || s2.isEmpty) = true
      · rw [if_pos hc2]; exact ih _ _ _ _ _ _ h
      · rw [if_neg hc2]; exact ih _ _ _ _ _ _ h
    · by_cases hc2 : (f2 || s2.isEmpty) = true
      · rw [if_pos hc2]; exact ih _ _ _ _ _ _ h
      · rw [if_neg hc2]; exact ih _ _ _ _ _ _ h
  | case7 =>
    intro s1 f1 t1 o1 s2 f2 h
    rw [matchChunk_bs_eqn] at h
    simp at h
  | case8 =>
    rename_i fl d ct hfa hb hq ih
    intro s1 f1 t1 o1 s2 f2 h
    rw [matchChunk_bs_cons_eqn] at h
    rw [matchChunk_bs_cons_eqn]
    split at h
    · by_cases hc2 : (f2 || s2.isEmpty) = true
      · rw [if_pos hc2]; exact ih _ _ _ _ _ _ h
      · rw [if_neg hc2]; exact ih _ _ _ _ _ _ h
    · by_cases hc2 : (f2 || s2.isEmpty) = true
      · rw [if_pos hc2]; exact ih _ _ _ _ _ _ h
      · rw [if_neg hc2]; exact ih _ _ _ _ _ _ h
  | case9 =>
    rename_i fl d ct hfa hb hq ih
    intro s1 f1 t1 o1 s2 f2 h
    rw [matchChunk_bs_cons_eqn] at h
    rw [matchChunk_bs_cons_eqn]
    split at h
    · by_cases hc2 : (f2 || s2.isEmpty) = true
      · rw [if_pos hc2]; exact ih _ _ _ _ _ _ h
      · rw [if_neg hc2]; exact ih _ _ _ _ _ _ h
    · by_cases hc2 : (f2 || s2.isEmpty) = true
      · rw [if_pos hc2]; exact ih _ _ _ _ _ _ h
      · rw [if_neg hc2]; exact ih _ _ _ _ _ _ h
  | case10 =>
    rename_i c ct fl h1 h2 h3 hfa ih
    intro s1 f1 t1 o1 s2 f2 h
    rw [matchChunk_other_eqn c ct _ _ h1 h2 h3] at h
    rw [matchChunk_other_eqn c ct _ _ h1 h2 h3]
    split at h
    · by_cases hc2 : (f2 || s2.isEmpty) = true
      · rw [if_pos hc2]; exact ih _ _ _ _ _ _ h
      · rw [if_neg hc2]; exact ih _ _ _ _ _ _ h
    · by_cases hc2 : (f2 || s2.isEmpty) = true
      · rw [if_pos hc2]; exact ih _ _ _ _ _ _ h
      · rw [if_neg hc2]; exact ih _ _ _ _ _ _ h
  | case11 =>
    rename_i c ct fl h1 h2 h3 hfa ih
    intro s1 f1 t1 o1 s2 f2 h
    rw [matchChunk_other_eqn c ct _ _ h1 h2 h3] at h
    rw [matchChunk_other_eqn c ct _ _ h1 h2 h3]
    split at h
    · by_cases hc2 : (f2 || s2.isEmpty) = true
      · rw [if_pos hc2]; exact ih _ _ _ _ _ _ h
      · rw [if_neg hc2]; exact ih _ _ _ _ _ _ h
    · by_cases hc2 : (f2 || s2.isEmpty) = true
      · rw [if_pos hc2]; exact ih _ _ _ _ _ _ h
      · rw [if_neg hc2]; exact ih _ _ _ _ _ _ h

/-- Helper (strong induction on the pattern length): the validation loop never
returns a match. -/
theorem validateRest_ne_aux : ∀ k pat, pat.length ≤ k → validateRest pat ≠ .ok true := by
  intro k
  induction k with
  | zero =>
    intro pat hk
    have hp : pat = [] := by
      cases pat
      · rfl
      · simp at hk
    subst hp
    rw [validateRest_eqn]
    simp
  | succ n ih =>
    intro pat hk
    rw [validateRest_eqn]
    split
    · simp
    · rename_i hne
      split
      · simp
      · rename_i r heq
        have hlt := scanChunk_rest_lt pat hne
        exact ih _ (by omega)

/-- Go filepath.Match's validation loop returns mismatch or ErrBadPattern,
never a match. -/
theorem validateRest_ne_ok_true (pat : List Char) : validateRest pat ≠ .ok true :=
  validateRest_ne_aux pat.length pat (le_refl _)

/-- Helper (strong induction on the pattern length): if Match returns true for
some name, the whole pattern passes Match's own syntactic validation. -/
theorem goMatch_true_valid_aux : ∀ k pat, pat.length ≤ k → ∀ name,
    goMatchAux pat name = .ok true → validateRest pat = .ok false := by
  intro k
  induction k with
  | zero =>
    intro pat hk name h
    have hp : pat = [] := by
      cases pat
      · rfl
      · simp at hk
    subst hp
    rw [validateRest_eqn]
    simp
  | succ n ih =>
    intro pat hk name h
    by_cases hne : pat = []
    · subst hne
      rw [validateRest_eqn]
      simp
    · rw [goMatchAux_eqn, if_neg hne] at h
      by_cases hstar : (scanChunk pat).1 = true ∧ (scanChunk pat).2.1 = []
      · have hrest : (scanChunk pat).2.2 = [] := scanChunk_chunk_nil pat hstar.2
        rw [validateRest_eqn, if_neg hne, hstar.2, hrest, matchChunk_nil_eqn]
        simp only [Bool.false_eq_true, if_false]
        rw [validateRest_eqn]
        simp
      · rw [if_neg hstar] at h
        have hlt := scanChunk_rest_lt pat hne
        split at h
        · simp at h
        · rename_i t ok heq
          obtain ⟨t2, o2, hok⟩ :=
            matchChunk_ok_transfer (scanChunk pat).2.1 name false name false t ok [] false heq
          have hval : validateRest pat = validateRest (scanChunk pat).2.2 := by
            rw [validateRest_eqn, if_neg hne, hok]
          split at h
          · rw [hval]
            exact ih _ (by omega) _ h
          · split at h
            · split at h
              · simp at h
              · rename_i t3 heq3
                rw [hval]
                exact ih _ (by omega) _ h
              · exact absurd h (validateRest_ne_ok_true _)
            · exact absurd h (validateRest_ne_ok_true _)

/-- Claim C6: matchPath is total (it is a function into Bool, and the first
conjunct records that it always returns one of the two booleans), and for a
malformed single-star pattern - one containing "*" but not "**" on which
filepath.Match reports ErrBadPattern - it matches no path except the one
exactly equal to the pattern string: Match's discarded error makes the
single-star branch return false, and only the exact-equality check remains. -/
theorem c6_theorem (path pattern : List Char)
    (h1 : containsGo pattern ['*'] = true)
    (h2 : containsGo pattern ['*', '*'] = false)
    (h3 : badPattern pattern = true) :
    (matchPath path pattern = true ∨ matchPath path pattern = false) ∧
    (matchPath path pattern = true ↔ path = pattern) := by
  refine ⟨by cases matchPath path pattern <;> simp, ?_⟩
  by_cases hpq : path = pattern
  · simp [matchPath, hpq]
  · have hfm : filepathMatch pattern path = false := by
      unfold filepathMatch
      cases hgm : goMatchAux pattern path with
      | error e => rfl
      | ok b =>
        cases b
        · rfl
        · have hv := goMatch_true_valid_aux pattern.length pattern (le_refl _) path hgm
          unfold badPattern at h3
          rw [hv] at h3
          simp [isErr] at h3
    unfold matchPath
    rw [if_neg hpq]
    simp [h1, h2, hfm, hpq]

/-- Witness for C6 at the malformed pattern "*[a" (unterminated character
class): it matches no other path, and still matches itself by exact equality. -/
theorem c6_witness :
    matchPath ("x/y".toList) ("*[a".toList) = false ∧
    matchPath ("*[a".toList) ("*[a".toList) = true := by
  have e1 : parseClass '\x00' false 0 ['a'] = .error () := by
    rw [parseClass]
    simp [getEsc]
  have e2 : matchChunk ['[', 'a'] [] false = .error () := by
    rw [matchChunk_class_eqn]
    simp [e1]
  have e3 : scanChunk ['*', '[', 'a'] = (true, ['[', 'a'], []) := by decide
  have e4 : validateRest ['*', '[', 'a'] = .error () := by
    rw [validateRest_eqn]
    simp [e3, e2]
  have h3 : badPattern ("*[a".toList) = true := by
    simp [badPattern, e4, isErr]
  have hres := c6_theorem ("x/y".toList) ("*[a".toList) (by decide) (by decide) h3
  have hres2 := c6_theorem ("*[a".toList) ("*[a".toList) (by decide) (by decide) h3
  constructor
  · cases hmp : matchPath ("x/y".toList) ("*[a".toList) with
    | false => rfl
    | true => exact absurd (hres.2.mp hmp) (by decide)
  · exact hres2.2.mpr rfl

theorem fieldsGo_eqn (s : List Char) :
    fieldsGo s =
      (if (s.dropWhile isSpaceGo) = [] then []
       else (s.dropWhile isSpaceGo).takeWhile (fun x => !isSpaceGo x) ::
         fieldsGo ((s.dropWhile isSpaceGo).dropWhile (fun x => !isSpaceGo x))) := by
  rw [fieldsGo]
  split
  · rfl
  · rfl

/-- Claim C7: parse-level faults are recoverable. (1) A header line (one
containing the NUL delimiter) with fewer than 5 fields is discarded: no
commit or file row is emitted and the current commit is unchanged. (2) The
same for a header whose timestamp does not parse. (3) A stat line whose
counts are not numeric (the binary-file marker) leaves the state entirely
unchanged, so the following lines of the commit are parsed as before. -/
theorem c7_theorem :
    (∀ st line, containsGo line ['\x00'] = true → (splitGo ['\x00'] line).length < 5 →
      (processLine st line).current = st.current ∧ (processLine st line).commits = st.commits ∧
        (processLine st line).files = st.files) ∧
    (∀ st line, containsGo line ['\x00'] = true → ¬(splitGo ['\x00'] line).length < 5 →
      parseTime ((splitGo ['\x00'] line).getD 3 []) = none →
      (processLine st line).current = st.current ∧ (processLine st line).commits = st.commits ∧
        (processLine st line).files = st.files) ∧
    (∀ st cur line, st.current = some cur → containsGo line ['\x00'] = false → line ≠ [] →
      3 ≤ (fieldsGo line).length →
      (atoiGo ((fieldsGo line).getD 0 []) = none ∨ atoiGo ((fieldsGo line).getD 1 []) = none) →
      processLine st line = st) := by
  refine ⟨?_, ?_, ?_⟩
  · intro st line h1 h2
    simp only [processLine, h1, if_true, if_pos h2]
    by_cases hcs : st.current.isSome <;> simp [hcs]
  · intro st line h1 h2 h3
    simp only [processLine, h1, if_true, if_neg h2, h3]
    by_cases hcs : st.current.isSome <;> simp [hcs]
  · intro st cur line hcur h1 h2 h3 h4
    have h5 : ¬((fieldsGo line).length < 3) := by omega
    simp only [List.getD_eq_getElem?_getD] at h4
    rcases h4 with h4 | h4
    · simp [processLine, h1, hcur, h2, h5, h4]
    · cases ha : atoiGo ((fieldsGo line)[0]?.getD []) with
      | none => simp [processLine, h1, hcur, h2, h5, ha]
      | some a => simp [processLine, h1, hcur, h2, h5, ha, h4]

/-- Witness for C7: a short header ("h" NUL "a"), a 5-field header with an
unparsable date, and a binary-marker stat line, each discarded. -/
theorem c7_witness :
    ((processLine ⟨none, [], [], 0⟩ ("h\x00a".toList)).commits = [] ∧
      (processLine ⟨none, [], [], 0⟩ ("h\x00a".toList)).current = none) ∧
    ((processLine ⟨none, [], [], 0⟩ ("h\x00a\x00e\x00baddate\x00msg".toList)).commits = [] ∧
      (processLine ⟨none, [], [], 0⟩ ("h\x00a\x00e\x00baddate\x00msg".toList)).current = none) ∧
    (∀ cur : GCommit, processLine ⟨some cur, [], [], 0⟩ ("-\t-\tfile.bin".toList) =
      ⟨some cur, [], [], 0⟩) := by
  have e1 : splitGo ['\x00'] ("h\x00a".toList) = ["h".toList, "a".toList] := by
    simp [splitGo_of_startsWith, splitGo_cons, splitGo_nil, startsWith]
  have e2 : splitGo ['\x00'] ("h\x00a\x00e\x00baddate\x00msg".toList) =
      ["h".toList, "a".toList, "e".toList, "baddate".toList, "msg".toList] := by
    simp [splitGo_of_startsWith, splitGo_cons, splitGo_nil, startsWith]
  have e3 : fieldsGo ("-\t-\tfile.bin".toList) =
      ["-".toList, "-".toList, "file.bin".toList] := by
    simp [fieldsGo_eqn, isSpaceGo]
  refine ⟨?_, ?_, ?_⟩
  · have h := c7_theorem.1 ⟨none, [], [], 0⟩ ("h\x00a".toList) (by decide) (by rw [e1]; simp)
    exact ⟨h.2.1, h.1⟩
  · have h := c7_theorem.2.1 ⟨none, [], [], 0⟩ ("h\x00a\x00e\x00baddate\x00msg".toList)
      (by decide) (by rw [e2]; simp) (by rw [e2]; decide)
    exact ⟨h.2.1, h.1⟩
  · intro cur
    exact c7_theorem.2.2 ⟨some cur, [], [], 0⟩ cur ("-\t-\tfile.bin".toList) rfl (by decide)
      (by decide) (by rw [e3]; simp) (by rw [e3]; left; decide)

/-- Shared helper: the file change emitted by a valid stat line (current
commit present, no delimiter, non-blank, at least 3 fields, numeric counts). -/
theorem processLine_stat (st : PState) (cur : GCommit) (line : List Char) (adds dels : Int)
    (hcur : st.current = some cur) (h1 : containsGo line ['\x00'] = false) (h2 : line ≠ [])
    (h3 : 3 ≤ (fieldsGo line).length)
    (ha : atoiGo ((fieldsGo line).getD 0 []) = some adds)
    (hd : atoiGo ((fieldsGo line).getD 1 []) = some dels) :
    processLine st line = { st with files := st.files ++
      [if 5 ≤ (fieldsGo line).length ∧ (fieldsGo line).getD 3 [] = ['=', '>'] then
         { commitHash := cur.hash, filepath := (fieldsGo line).getD 4 [],
           additions := adds, deletions := dels, changeType := ['R'] }
       else
         { commitHash := cur.hash, filepath := (fieldsGo line).getD 2 [],
           additions := adds, deletions := dels,
           changeType :=
             if adds > 0 ∧ dels = 0 then ['A']
             else if adds = 0 ∧ dels > 0 then ['D']
             else ['M'] }] } := by
  have h5 : ¬((fieldsGo line).length < 3) := by omega
  simp only [List.getD_eq_getElem?_getD] at ha hd ⊢
  by_cases hr : 5 ≤ (fieldsGo line).length ∧ (fieldsGo line)[3]?.getD [] = ['=', '>']
  · simp [processLine, h1, hcur, h2, h5, ha, hd, hr]
  · simp [processLine, h1, hcur, h2, h5, ha, hd, hr]

/-- Claim C4 as stated is false: rename detection is positional, requiring at
least five whitespace tokens with "=>" as exactly the fourth; a path field
that contains the rename arrow elsewhere (here "a b => c", whose fourth token
is "b") is not classified Renamed - the counts 1/2 give type "M". -/
theorem c4_counterexample :
    containsGo ("a b => c".toList) (" => ".toList) = true ∧
    (processLine
        ⟨some ⟨"h".toList, "a".toList, "e".toList, ⟨2024, 1, 1, 0, 0, 0, 0⟩, "m".toList⟩,
          [], [], 0⟩
        ("1\t2\ta b => c".toList)).files =
      [⟨"h".toList, "a".toList, 1, 2, ['M']⟩] := by
  refine ⟨by decide, ?_⟩
  have e : fieldsGo ("1\t2\ta b => c".toList) =
      ["1".toList, "2".toList, "a".toList, "b".toList, "=>".toList, "c".toList] := by
    simp [fieldsGo_eqn, isSpaceGo]
  have h := processLine_stat
    ⟨some ⟨"h".toList, "a".toList, "e".toList, ⟨2024, 1, 1, 0, 0, 0, 0⟩, "m".toList⟩, [], [], 0⟩
    ⟨"h".toList, "a".toList, "e".toList, ⟨2024, 1, 1, 0, 0, 0, 0⟩, "m".toList⟩
    ("1\t2\ta b => c".toList) 1 2 rfl (by decide) (by decide)
    (by rw [e]; simp) (by rw [e]; decide) (by rw [e]; decide)
  rw [h, e]
  simp

/-- Claim C4 (amended): for a valid stat line the change type is Renamed iff
the line has at least five whitespace-separated tokens and the fourth is
exactly "=>"; otherwise it is Added when additions>0 and deletions=0,
Deleted when additions=0 and deletions>0, and Modified in all other cases. -/
theorem c4_theorem : ∀ st cur line adds dels, st.current = some cur →
    containsGo line ['\x00'] = false → line ≠ [] → 3 ≤ (fieldsGo line).length →
    atoiGo ((fieldsGo line).getD 0 []) = some adds →
    atoiGo ((fieldsGo line).getD 1 []) = some dels →
    ∃ fc, (processLine st line).files = st.files ++ [fc] ∧
      (fc.changeType = ['R'] ↔
        (5 ≤ (fieldsGo line).length ∧ (fieldsGo line).getD 3 [] = ['=', '>'])) ∧
      (¬(5 ≤ (fieldsGo line).length ∧ (fieldsGo line).getD 3 [] = ['=', '>']) →
        fc.changeType =
          (if adds > 0 ∧ dels = 0 then ['A'] else if adds = 0 ∧ dels > 0 then ['D']
           else ['M'])) := by
  intro st cur line adds dels hcur h1 h2 h3 ha hd
  rw [processLine_stat st cur line adds dels hcur h1 h2 h3 ha hd]
  by_cases hr : 5 ≤ (fieldsGo line).length ∧ (fieldsGo line).getD 3 [] = ['=', '>']
  · refine ⟨_, by rw [if_pos hr], ?_, ?_⟩
    · simp only [List.getD_eq_getElem?_getD] at hr
      simp [hr]
    · intro hc
      exact absurd hr hc
  · refine ⟨_, by rw [if_neg hr], ?_, fun _ => rfl⟩
    constructor
    · intro hR
      by_cases hA : adds > 0 ∧ dels = 0
      · rw [if_pos hA] at hR
        simp at hR
      · rw [if_neg hA] at hR
        by_cases hD : adds = 0 ∧ dels > 0
        · rw [if_pos hD] at hR
          simp at hR
        · rw [if_neg hD] at hR
          simp at hR
    · intro hc
      exact absurd hc hr

/-- Witness for C4's theorem at a genuine rename stat line. -/
theorem c4_witness :
    ∃ fc, (processLine ⟨some ⟨"h".toList, "a".toList, "e".toList,
        ⟨2024, 1, 1, 0, 0, 0, 0⟩, "m".toList⟩, [], [], 0⟩
        ("0\t0\told.txt => new.txt".toList)).files = [] ++ [fc] ∧
      (fc.changeType = ['R'] ↔
        (5 ≤ (fieldsGo ("0\t0\told.txt => new.txt".toList)).length ∧
          (fieldsGo ("0\t0\told.txt => new.txt".toList)).getD 3 [] = ['=', '>'])) ∧
      (¬(5 ≤ (fieldsGo ("0\t0\told.txt => new.txt".toList)).length ∧
          (fieldsGo ("0\t0\told.txt => new.txt".toList)).getD 3 [] = ['=', '>']) →
        fc.changeType =
          (if (0 : Int) > 0 ∧ (0 : Int) = 0 then ['A']
           else if (0 : Int) = 0 ∧ (0 : Int) > 0 then ['D'] else ['M'])) := by
  have e : fieldsGo ("0\t0\told.txt => new.txt".toList) =
      ["0".toList, "0".toList, "old.txt".toList, "=>".toList, "new.txt".toList] := by
    simp [fieldsGo_eqn, isSpaceGo]
  exact c4_theorem
    ⟨some ⟨"h".toList, "a".toList, "e".toList, ⟨2024, 1, 1, 0, 0, 0, 0⟩, "m".toList⟩, [], [], 0⟩
    ⟨"h".toList, "a".toList, "e".toList, ⟨2024, 1, 1, 0, 0, 0, 0⟩, "m".toList⟩
    ("0\t0\told.txt => new.txt".toList) 0 0 rfl (by decide) (by decide)
    (by rw [e]; simp) (by rw [e]; decide) (by rw [e]; decide)

/-- Claim C9: when a header line is discarded (fewer than 5 NUL-separated
fields, or an unparsable timestamp), the previously parsed commit stays
current, and a valid stat line that follows is attributed to that previous
commit's hash. -/
theorem c9_theorem : ∀ st c hl, st.current = some c → containsGo hl ['\x00'] = true →
    ((splitGo ['\x00'] hl).length < 5 ∨ parseTime ((splitGo ['\x00'] hl).getD 3 []) = none) →
    (processLine st hl).current = some c ∧
    (∀ sl adds dels, containsGo sl ['\x00'] = false → sl ≠ [] →
      3 ≤ (fieldsGo sl).length →
      atoiGo ((fieldsGo sl).getD 0 []) = some adds →
      atoiGo ((fieldsGo sl).getD 1 []) = some dels →
      ∃ fc, (processLine (processLine st hl) sl).files = (processLine st hl).files ++ [fc] ∧
        fc.commitHash = c.hash) := by
  intro st c hl hcur h1 hdisc
  have hkeep : (processLine st hl).current = some c := by
    rcases hdisc with h2 | h2
    · simp only [processLine, h1, if_true, if_pos h2]
      by_cases hcs : st.current.isSome <;> simp [hcs, hcur]
    · by_cases h5 : (splitGo ['\x00'] hl).length < 5
      · simp only [processLine, h1, if_true, if_pos h5]
        by_cases hcs : st.current.isSome <;> simp [hcs, hcur]
      · simp only [processLine, h1, if_true, if_neg h5, h2]
        by_cases hcs : st.current.isSome <;> simp [hcs, hcur]
  refine ⟨hkeep, ?_⟩
  intro sl adds dels hs1 hs2 hs3 hsa hsd
  rw [processLine_stat (processLine st hl) c sl adds dels hkeep hs1 hs2 hs3 hsa hsd]
  by_cases hr : 5 ≤ (fieldsGo sl).length ∧ (fieldsGo sl).getD 3 [] = ['=', '>']
  · exact ⟨_, by rw [if_pos hr], rfl⟩
  · exact ⟨_, by rw [if_neg hr], rfl⟩

/-- Witness for C9: a malformed header between two commits, followed by a
stat line; the file change carries the earlier commit's hash. -/
theorem c9_witness :
    (processLine
        ⟨some ⟨"h1".toList, "a".toList, "e".toList, ⟨2024, 1, 1, 0, 0, 0, 0⟩, "m".toList⟩,
          [], [], 0⟩ ("x\x00y".toList)).current =
      some ⟨"h1".toList, "a".toList, "e".toList, ⟨2024, 1, 1, 0, 0, 0, 0⟩, "m".toList⟩ ∧
    ∃ fc, (processLine (processLine
        ⟨some ⟨"h1".toList, "a".toList, "e".toList, ⟨2024, 1, 1, 0, 0, 0, 0⟩, "m".toList⟩,
          [], [], 0⟩ ("x\x00y".toList)) ("1\t2\tf.go".toList)).files =
      (processLine
        ⟨some ⟨"h1".toList, "a".toList, "e".toList, ⟨2024, 1, 1, 0, 0, 0, 0⟩, "m".toList⟩,
          [], [], 0⟩ ("x\x00y".toList)).files ++ [fc] ∧
      fc.commitHash = "h1".toList := by
  have e1 : splitGo ['\x00'] ("x\x00y".toList) = ["x".toList, "y".toList] := by
    simp [splitGo_of_startsWith, splitGo_cons, splitGo_nil, startsWith]
  have e3 : fieldsGo ("1\t2\tf.go".toList) =
      ["1".toList, "2".toList, "f.go".toList] := by
    simp [fieldsGo_eqn, isSpaceGo]
  have h := c9_theorem
    ⟨some ⟨"h1".toList, "a".toList, "e".toList, ⟨2024, 1, 1, 0, 0, 0, 0⟩, "m".toList⟩, [], [], 0⟩
    ⟨"h1".toList, "a".toList, "e".toList, ⟨2024, 1, 1, 0, 0, 0, 0⟩, "m".toList⟩
    ("x\x00y".toList) rfl (by decide) (Or.inl (by rw [e1]; simp))
  exact ⟨h.1, h.2 ("1\t2\tf.go".toList) 1 2 (by decide) (by decide)
    (by rw [e3]; simp) (by rw [e3]; decide) (by rw [e3]; decide)⟩

/-- Claim C10: stat lines are tokenized on arbitrary whitespace, so for a
non-rename stat line the recorded filepath is exactly the third
whitespace-separated token - the first token of a path field that contains
whitespace - not the full path field. -/
theorem c10_theorem : ∀ st cur line adds dels, st.current = some cur →
    containsGo line ['\x00'] = false → line ≠ [] → 3 ≤ (fieldsGo line).length →
    atoiGo ((fieldsGo line).getD 0 []) = some adds →
    atoiGo ((fieldsGo line).getD 1 []) = some dels →
    ¬(5 ≤ (fieldsGo line).length ∧ (fieldsGo line).getD 3 [] = ['=', '>']) →
    ∃ fc, (processLine st line).files = st.files ++ [fc] ∧
      fc.filepath = (fieldsGo line).getD 2 [] := by
  intro st cur line adds dels hcur h1 h2 h3 ha hd hr
  rw [processLine_stat st cur line adds dels hcur h1 h2 h3 ha hd]
  exact ⟨_, by rw [if_neg hr], rfl⟩

/-- Witness for C10 at the stat line "1 TAB 2 TAB my file.txt": the recorded
filepath is only "my", the first whitespace-separated token of the path. -/
theorem c10_witness :
    (∃ fc, (processLine
        ⟨some ⟨"h".toList, "a".toList, "e".toList, ⟨2024, 1, 1, 0, 0, 0, 0⟩, "m".toList⟩,
          [], [], 0⟩ ("1\t2\tmy file.txt".toList)).files = [] ++ [fc] ∧
      fc.filepath = (fieldsGo ("1\t2\tmy file.txt".toList)).getD 2 []) ∧
    (fieldsGo ("1\t2\tmy file.txt".toList)).getD 2 [] = "my".toList := by
  have e : fieldsGo ("1\t2\tmy file.txt".toList) =
      ["1".toList, "2".toList, "my".toList, "file.txt".toList] := by
    simp [fieldsGo_eqn, isSpaceGo]
  refine ⟨?_, by rw [e]; decide⟩
  exact c10_theorem
    ⟨some ⟨"h".toList, "a".toList, "e".toList, ⟨2024, 1, 1, 0, 0, 0, 0⟩, "m".toList⟩, [], [], 0⟩
    ⟨"h".toList, "a".toList, "e".toList, ⟨2024, 1, 1, 0, 0, 0, 0⟩, "m".toList⟩
    ("1\t2\tmy file.txt".toList) 1 2 rfl (by decide) (by decide)
    (by rw [e]; simp) (by rw [e]; decide) (by rw [e]; decide) (by rw [e]; decide)

theorem lookupA_upsertA_self {α β : Type} [DecidableEq α] (k : α) (v : β) :
    ∀ m : List (α × β), lookupA k (upsertA k v m) = some v := by
  intro m
  induction m with
  | nil => simp [upsertA, lookupA]
  | cons p t ih =>
    obtain ⟨k1, v1⟩ := p
    by_cases h : k = k1
    · simp [upsertA, lookupA, h]
    · simp [upsertA, lookupA, h, ih]

theorem lookupA_upsertA_ne {α β : Type} [DecidableEq α] (k k1 : α) (v : β) (hne : k ≠ k1) :
    ∀ m : List (α × β), lookupA k (upsertA k1 v m) = lookupA k m := by
  intro m
  induction m with
  | nil => simp [upsertA, lookupA, hne]
  | cons p t ih =>
    obtain ⟨k2, v2⟩ := p
    by_cases h : k1 = k2
    · subst h
      simp [upsertA, lookupA, hne]
    · by_cases h2 : k = k2
      · simp [upsertA, lookupA, h, h2]
      · simp [upsertA, lookupA, h, h2, ih]

/-- The row scan seen through one aggregation key: folding the rows of the
group updates the key (cid, rid, email) exactly with the rows that match a
pattern and carry that email. -/
theorem scanGroup_lookup (cid rid : Nat) (pats : List (List Char)) (email : List Char) :
    ∀ (rows : List Row) (m : List ((Nat × Nat × List Char) × Contrib)),
    lookupA (cid, rid, email) (rows.foldl (stepRow cid rid pats) m) =
      (rows.filter (fun r =>
        (pats.any fun p => matchPath r.filepath p) && decide (r.email = email))).foldl
        (fun oc r => some (applyRow (oc.getD emptyContrib) r))
        (lookupA (cid, rid, email) m) := by
  intro rows
  induction rows with
  | nil => intro m; simp
  | cons r rest ih =>
    intro m
    simp only [List.foldl_cons, List.filter_cons]
    by_cases hm : (pats.any fun p => matchPath r.filepath p) = true
    · by_cases he : r.email = email
      · rw [if_pos (by simp [hm, he])]
        rw [List.foldl_cons]
        rw [ih]
        have hst : lookupA (cid, rid, email) (stepRow cid rid pats m r) =
            some (applyRow ((lookupA (cid, rid, email) m).getD emptyContrib) r) := by
          simp only [stepRow]
          rw [if_pos hm, he]
          exact lookupA_upsertA_self _ _ _
        rw [hst]
      · have hkey : (cid, rid, email) ≠ (cid, rid, r.email) := by
          intro hx
          simp only [Prod.mk.injEq] at hx
          exact he hx.2.2.symm
        rw [if_neg (by simp [he])]
        rw [ih]
        have hst : lookupA (cid, rid, email) (stepRow cid rid pats m r) =
            lookupA (cid, rid, email) m := by
          simp only [stepRow]
          rw [if_pos hm]
          exact lookupA_upsertA_ne _ _ _ hkey _
        rw [hst]
    · rw [if_neg (by simp [hm])]
      rw [ih]
      have hst : stepRow cid rid pats m r = m := by
        simp only [stepRow]
        rw [if_neg hm]
      rw [hst]

theorem foldl_applyRow_some : ∀ (l : List Row) (c0 : Contrib),
    l.foldl (fun oc r => some (applyRow (oc.getD emptyContrib) r)) (some c0) =
      some (l.foldl applyRow c0) := by
  intro l
  induction l with
  | nil => intro c0; simp
  | cons r t ih => intro c0; simp [ih]

theorem foldl_applyRow_additions : ∀ (l : List Row) (c0 : Contrib),
    (l.foldl applyRow c0).additions = c0.additions + (l.map Row.additions).sum := by
  intro l
  induction l with
  | nil => intro c0; simp
  | cons r t ih =>
    intro c0
    simp only [List.foldl_cons, List.map_cons, List.sum_cons]
    rw [ih]
    simp [applyRow]
    omega

theorem foldl_applyRow_deletions : ∀ (l : List Row) (c0 : Contrib),
    (l.foldl applyRow c0).deletions = c0.deletions + (l.map Row.deletions).sum := by
  intro l
  induction l with
  | nil => intro c0; simp
  | cons r t ih =>
    intro c0
    simp only [List.foldl_cons, List.map_cons, List.sum_cons]
    rw [ih]
    simp [applyRow]
    omega

theorem foldl_applyRow_commits : ∀ (l : List Row) (c0 : Contrib),
    (l.foldl applyRow c0).commits =
      (l.map Row.hash).foldl (fun s h => insertHash h s) c0.commits := by
  intro l
  induction l with
  | nil => intro c0; simp
  | cons r t ih =>
    intro c0
    simp only [List.foldl_cons, List.map_cons]
    rw [ih]
    rfl

theorem insertHash_nodup (h : List Char) (s : List (List Char)) (hs : s.Nodup) :
    (insertHash h s).Nodup := by
  unfold insertHash
  split
  · exact hs
  · rename_i hmem
    simp [List.nodup_append, hs, hmem]

theorem insertHash_toFinset (h : List Char) (s : List (List Char)) :
    (insertHash h s).toFinset = insert h s.toFinset := by
  unfold insertHash
  split
  · rename_i hmem
    rw [Finset.insert_eq_self.mpr (List.mem_toFinset.mpr hmem)]
  · simp [List.toFinset_append]
    rw [Finset.union_comm]
    simp [Finset.insert_eq]

theorem foldl_insertHash_nodup : ∀ (hs : List (List Char)) (acc : List (List Char)),
    acc.Nodup → (hs.foldl (fun s h => insertHash h s) acc).Nodup := by
  intro hs
  induction hs with
  | nil => intro acc h; simpa using h
  | cons a t ih =>
    intro acc h
    simp only [List.foldl_cons]
    exact ih _ (insertHash_nodup a acc h)

theorem foldl_insertHash_toFinset : ∀ (hs : List (List Char)) (acc : List (List Char)),
    (hs.foldl (fun s h => insertHash h s) acc).toFinset = acc.toFinset ∪ hs.toFinset := by
  intro hs
  induction hs with
  | nil => intro acc; simp
  | cons a t ih =>
    intro acc
    simp only [List.foldl_cons, List.toFinset_cons]
    rw [ih, insertHash_toFinset]
    rw [Finset.insert_union, Finset.union_insert]

/-- Claim C3: for one (component, repository) pattern group, the accumulator
emitted for an aggregation key (componentID, repositoryID, email) counts
distinct commit hashes among the matched file rows (the commits set has no
duplicates and its size is the number of distinct hashes), and sums
additions/deletions over matched file rows only. -/
theorem c3_theorem : ∀ (cid rid : Nat) (pats : List (List Char)) (rows : List Row)
    (email : List Char) (c : Contrib),
    lookupA (cid, rid, email) (scanGroup cid rid pats rows []) = some c →
    c.additions = ((rows.filter (fun r =>
      (pats.any fun p => matchPath r.filepath p) && decide (r.email = email))).map
      Row.additions).sum ∧
    c.deletions = ((rows.filter (fun r =>
      (pats.any fun p => matchPath r.filepath p) && decide (r.email = email))).map
      Row.deletions).sum ∧
    c.commits.length = ((rows.filter (fun r =>
      (pats.any fun p => matchPath r.filepath p) && decide (r.email = email))).map
      Row.hash).toFinset.card := by
  intro cid rid pats rows email c h
  unfold scanGroup at h
  rw [scanGroup_lookup] at h
  cases hml : rows.filter (fun r =>
      (pats.any fun p => matchPath r.filepath p) && decide (r.email = email)) with
  | nil =>
    rw [hml] at h
    simp [lookupA] at h
  | cons r0 t =>
    rw [hml] at h
    simp only [lookupA, List.foldl_cons, Option.getD_none] at h
    rw [foldl_applyRow_some] at h
    simp only [Option.some.injEq] at h
    refine ⟨?_, ?_, ?_⟩
    · rw [← h, foldl_applyRow_additions]
      simp [applyRow, emptyContrib]
    · rw [← h, foldl_applyRow_deletions]
      simp [applyRow, emptyContrib]
    · rw [← h, foldl_applyRow_commits]
      have hbase : (applyRow emptyContrib r0).commits = [r0.hash] := by
        simp [applyRow, emptyContrib, insertHash]
      rw [hbase]
      have hnd : ((t.map Row.hash).foldl (fun s h => insertHash h s) [r0.hash]).Nodup :=
        foldl_insertHash_nodup _ _ (by simp)
      have hfs : ((t.map Row.hash).foldl (fun s h => insertHash h s) [r0.hash]).toFinset =
          ([r0.hash] : List (List Char)).toFinset ∪ (t.map Row.hash).toFinset :=
        foldl_insertHash_toFinset _ _
      rw [← List.toFinset_card_of_nodup hnd, hfs]
      simp [List.toFinset_cons, Finset.insert_eq]

/-- Witness for C3: the spec's two-commit example, giving commit_count 2,
total additions 10, total deletions 7. -/
theorem c3_witness :
    ∃ c, lookupA (1, 1, ("alice@example.com".toList))
        (scanGroup 1 1 ["src/api/**".toList]
          [⟨"h1".toList, "alice".toList, "alice@example.com".toList, 10, 2,
              "src/api/a.go".toList⟩,
            ⟨"h2".toList, "alice".toList, "alice@example.com".toList, 0, 5,
              "src/api/b.go".toList⟩] []) = some c ∧
      c.additions = 10 ∧ c.deletions = 7 ∧ c.commits.length = 2 := by
  have hl : lookupA (1, 1, ("alice@example.com".toList))
      (scanGroup 1 1 ["src/api/**".toList]
        [⟨"h1".toList, "alice".toList, "alice@example.com".toList, 10, 2,
            "src/api/a.go".toList⟩,
          ⟨"h2".toList, "alice".toList, "alice@example.com".toList, 0, 5,
            "src/api/b.go".toList⟩] []) =
      some ⟨"alice".toList, ["h1".toList, "h2".toList], 10, 7⟩ := by
    simp [scanGroup, stepRow, applyRow, emptyContrib, insertHash, upsertA, lookupA,
      matchPath, containsGo_cons_unfold, containsGo_nil_unfold, splitGo_of_startsWith,
      splitGo_cons, splitGo_nil, startsWith, trimOneTrailSlash, trimOneLeadSlash, endsWith]
  have h := c3_theorem 1 1 ["src/api/**".toList]
    [⟨"h1".toList, "alice".toList, "alice@example.com".toList, 10, 2,
        "src/api/a.go".toList⟩,
      ⟨"h2".toList, "alice".toList, "alice@example.com".toList, 0, 5,
        "src/api/b.go".toList⟩]
    ("alice@example.com".toList) ⟨"alice".toList, ["h1".toList, "h2".toList], 10, 7⟩ hl
  exact ⟨_, hl, by decide, by decide, by decide⟩

/-- Claim C8: during aggregation of one component, a pattern entry without
the repository:pattern colon separator contributes nothing (the component's
other entries are processed exactly as if it were absent), and a pattern
group whose repository name is not among the configured repository ids is
skipped, the remaining groups still being processed; no error is possible
(both operations are total functions). -/
theorem c8_theorem :
    (∀ (repoIDs : List (List Char × Nat)) (rowsOf : Nat → List Row) (cid : Nat)
      (m : List ((Nat × Nat × List Char) × Contrib)) (paths1 paths2 : List (List Char))
      (p : List Char), splitColon p = none →
      processComponent repoIDs rowsOf cid (paths1 ++ p :: paths2) m =
        processComponent repoIDs rowsOf cid (paths1 ++ paths2) m) ∧
    (∀ (repoIDs : List (List Char × Nat)) (rowsOf : Nat → List Row) (cid : Nat)
      (m : List ((Nat × Nat × List Char) × Contrib))
      (g1 g2 : List (List Char × List (List Char))) (rn : List Char)
      (pats : List (List Char)), lookupA rn repoIDs = none →
      (g1 ++ (rn, pats) :: g2).foldl (groupStep repoIDs rowsOf cid) m =
        (g1 ++ g2).foldl (groupStep repoIDs rowsOf cid) m) := by
  constructor
  · intro repoIDs rowsOf cid m paths1 paths2 p hp
    unfold processComponent
    have hb : buildPatterns (paths1 ++ p :: paths2) = buildPatterns (paths1 ++ paths2) := by
      unfold buildPatterns
      rw [List.foldl_append, List.foldl_append, List.foldl_cons]
      have hstep : patEntryStep (paths1.foldl patEntryStep []) p =
          paths1.foldl patEntryStep [] := by
        unfold patEntryStep
        rw [hp]
      rw [hstep]
    rw [hb]
  · intro repoIDs rowsOf cid m g1 g2 rn pats hrn
    rw [List.foldl_append, List.foldl_append, List.foldl_cons]
    have hstep : groupStep repoIDs rowsOf cid (g1.foldl (groupStep repoIDs rowsOf cid) m)
        (rn, pats) = g1.foldl (groupStep repoIDs rowsOf cid) m := by
      unfold groupStep
      rw [hrn]
    rw [hstep]

/-- Witness for C8: a colonless pattern entry is dropped, and a group naming
an unconfigured repository is skipped. -/
theorem c8_witness :
    processComponent [("repo".toList, 1)] (fun _ => []) 7
        (["badpattern".toList] ++ ["repo:a/**".toList]) [] =
      processComponent [("repo".toList, 1)] (fun _ => []) 7
        ([] ++ ["repo:a/**".toList]) [] ∧
    ([] ++ [(("ghost".toList), ["x".toList])]).foldl
        (groupStep [("repo".toList, 1)] (fun _ => []) 7) [] =
      ([] ++ []).foldl (groupStep [("repo".toList, 1)] (fun _ => []) 7) [] := by
  constructor
  · have h := c8_theorem.1 [("repo".toList, 1)] (fun _ => []) 7 []
      [] ["repo:a/**".toList] ("badpattern".toList) (by decide)
    simpa using h
  · exact c8_theorem.2 [("repo".toList, 1)] (fun _ => []) 7 [] []
      [] ("ghost".toList) ["x".toList] (by decide)
